import Mathlib

/-!
Verification of the GoBlockChain core (package `block`, with the wallet and
server as external collaborators) against its natural-language specification.

The Go code is shallowly embedded: byte strings are `List Nat` (each entry a
byte value), machine integers are `Nat`/`Int` with explicit `% 2^32` where
overflow matters, `time.Now()` is an explicit timestamp argument, fallible or
panicking code returns `Option`, and the unbounded proof-of-work loop takes
explicit fuel.  `crypto/sha256.Sum256` is implemented in full (FIPS 180-4) so
that hashes evaluate concretely.
-/

/-! ## SHA-256 (`crypto/sha256.Sum256`), over byte lists -/

def M32 : Nat := 4294967296

def rotr (n w : Nat) : Nat := ((w >>> n) ||| (w <<< (32 - n))) % M32

def bsig0 (x : Nat) : Nat := (rotr 7 x) ^^^ (rotr 18 x) ^^^ (x >>> 3)

def bsig1 (x : Nat) : Nat := (rotr 17 x) ^^^ (rotr 19 x) ^^^ (x >>> 10)

def ssig0 (x : Nat) : Nat := (rotr 2 x) ^^^ (rotr 13 x) ^^^ (rotr 22 x)

def ssig1 (x : Nat) : Nat := (rotr 6 x) ^^^ (rotr 11 x) ^^^ (rotr 25 x)

def shaK : List Nat :=
  [1116352408, 1899447441, 3049323471, 3921009573, 961987163, 1508970993,
   2453635748, 2870763221, 3624381080, 310598401, 607225278, 1426881987,
   1925078388, 2162078206, 2614888103, 3248222580, 3835390401, 4022224774,
   264347078, 604807628, 770255983, 1249150122, 1555081692, 1996064986,
   2554220882, 2821834349, 2952996808, 3210313671, 3336571891, 3584528711,
   113926993, 338241895, 666307205, 773529912, 1294757372, 1396182291,
   1695183700, 1986661051, 2177026350, 2456956037, 2730485921, 2820302411,
   3259730800, 3345764771, 3516065817, 3600352804, 4094571909, 275423344,
   430227734, 506948616, 659060556, 883997877, 958139571, 1322822218,
   1537002063, 1747873779, 1955562222, 2024104815, 2227730452, 2361852424,
   2428436474, 2756734187, 3204031479, 3329325298]

structure Hs where
  a : Nat
  b : Nat
  c : Nat
  d : Nat
  e : Nat
  f : Nat
  g : Nat
  h : Nat

def roundStep (s : Hs) (k : Nat) (w : Nat) : Hs :=
  let t1 := (s.h + ssig1 s.e + ((s.e &&& s.f) ^^^ ((s.e ^^^ 4294967295) &&& s.g)) + k + w) % M32
  let t2 := (ssig0 s.a + ((s.a &&& s.b) ^^^ (s.a &&& s.c) ^^^ (s.b &&& s.c))) % M32
  ⟨(t1 + t2) % M32, s.a, s.b, s.c, (s.d + t1) % M32, s.e, s.f, s.g⟩

def rounds : List (Nat × Nat) → Hs → Hs
  | [], s => s
  | (k, w) :: rest, s => rounds rest (roundStep s k w)

def extendSched : Nat → List Nat → List Nat
  | 0, acc => acc
  | n + 1, acc =>
    let w := (bsig1 (acc.getD 1 0) + acc.getD 6 0 + bsig0 (acc.getD 14 0) + acc.getD 15 0) % M32
    extendSched n (w :: acc)

def schedule (ws : List Nat) : List Nat := (extendSched 48 ws.reverse).reverse

def toWords : List Nat → List Nat
  | a :: b :: c :: d :: rest => (((a * 256 + b) * 256 + c) * 256 + d) :: toWords rest
  | _ => []

def addHs (s t : Hs) : Hs :=
  ⟨(s.a + t.a) % M32, (s.b + t.b) % M32, (s.c + t.c) % M32, (s.d + t.d) % M32,
   (s.e + t.e) % M32, (s.f + t.f) % M32, (s.g + t.g) % M32, (s.h + t.h) % M32⟩

def compress (s : Hs) (blockBytes : List Nat) : Hs :=
  addHs s (rounds (shaK.zip (schedule (toWords blockBytes))) s)

def chunks : Nat → List Nat → List (List Nat)
  | 0, _ => []
  | _, [] => []
  | n + 1, l => l.take 64 :: chunks n (l.drop 64)

def compressAll : List (List Nat) → Hs → Hs
  | [], s => s
  | b :: rest, s => compressAll rest (compress s b)

def be8 (n : Nat) : List Nat :=
  [(n >>> 56) % 256, (n >>> 48) % 256, (n >>> 40) % 256, (n >>> 32) % 256,
   (n >>> 24) % 256, (n >>> 16) % 256, (n >>> 8) % 256, n % 256]

def hInit : Hs :=
  ⟨1779033703, 3144134277, 1013904242, 2773480762, 1359893119, 2600822924, 528734635, 1541459225⟩

def digestOf (s : Hs) : List Nat :=
  [(s.a >>> 24) % 256, (s.a >>> 16) % 256, (s.a >>> 8) % 256, s.a % 256,
   (s.b >>> 24) % 256, (s.b >>> 16) % 256, (s.b >>> 8) % 256, s.b % 256,
   (s.c >>> 24) % 256, (s.c >>> 16) % 256, (s.c >>> 8) % 256, s.c % 256,
   (s.d >>> 24) % 256, (s.d >>> 16) % 256, (s.d >>> 8) % 256, s.d % 256,
   (s.e >>> 24) % 256, (s.e >>> 16) % 256, (s.e >>> 8) % 256, s.e % 256,
   (s.f >>> 24) % 256, (s.f >>> 16) % 256, (s.f >>> 8) % 256, s.f % 256,
   (s.g >>> 24) % 256, (s.g >>> 16) % 256, (s.g >>> 8) % 256, s.g % 256,
   (s.h >>> 24) % 256, (s.h >>> 16) % 256, (s.h >>> 8) % 256, s.h % 256]

def sha256 (msg : List Nat) : List Nat :=
  let L := msg.length
  let padded := msg ++ 128 :: (List.replicate ((119 - (L % 64)) % 64) 0 ++ be8 (8 * L))
  digestOf (compressAll (chunks padded.length padded) hInit)

/-! ## Byte-level encodings used by the Go code -/

/-- UTF-8 bytes of one Unicode scalar value (Go strings are UTF-8 bytes). -/
def utf8Char (c : Nat) : List Nat :=
  if c < 128 then [c]
  else if c < 2048 then [192 + c / 64, 128 + c % 64]
  else if c < 65536 then [224 + c / 4096, 128 + (c / 64) % 64, 128 + c % 64]
  else [240 + c / 262144, 128 + (c / 4096) % 64, 128 + (c / 64) % 64, 128 + c % 64]

/-- The bytes of a Go string (`[]byte(s)`). -/
def strBytes (s : String) : List Nat := s.data.flatMap (fun c => utf8Char c.toNat)

def natDecAux : Nat → Nat → List Nat
  | 0, _ => []
  | f + 1, n => if n < 10 then [48 + n] else natDecAux f (n / 10) ++ [48 + n % 10]

/-- Decimal ASCII digits of a natural number (as Go `%d` prints it). -/
def natDec (n : Nat) : List Nat := natDecAux (n + 1) n

/-- Decimal ASCII of an integer (as Go `%d` / `encoding/json` print an `int64`). -/
def intDec (i : Int) : List Nat := if i < 0 then 45 :: natDec i.natAbs else natDec i.toNat

def hexDigitByte (n : Nat) : Nat := if n < 10 then 48 + n else 87 + n

/-- Lowercase hex of a byte slice, two digits per byte (Go `fmt.Sprintf("%x", b)`
on a `[32]byte`). -/
def hexOfBytes (l : List Nat) : List Nat :=
  l.flatMap (fun b => [hexDigitByte ((b / 16) % 16), hexDigitByte (b % 16)])

/-! ## Data model (`block.Transaction`, `block.Block`, `block.Blockchain`)

Slices distinguish `nil` from empty in Go and the two marshal differently
(`null` vs `[]`), so a `[]*Transaction` field is `Option (List Transaction)`
with `none` for `nil`.  `float32` values are only stored and compared, never
rounded, in the verified operations, so they are embedded as `Rat`.  The two
mutexes of `Blockchain` serialize access and carry no data; state is passed
explicitly instead. -/

structure Transaction where
  senderBlockchainAddress : String
  recipientBlockchainAddress : String
  value : Rat
deriving DecidableEq

structure Block where
  timestamp : Int
  nonce : Int
  previousHash : List Nat
  transactions : Option (List Transaction)
deriving DecidableEq

structure Blockchain where
  transactionPool : Option (List Transaction)
  chain : List Block
  blockchainAddress : String
  port : Nat
  neighbors : List String
deriving DecidableEq

def miningDifficulty : Nat := 3

def miningSender : String := "THE BLOCKCHAIN"

def miningReward : Rat := 1

/-- Modelled from the spec: `utils.Signature` (package `goblockchain/utils` is
not among the repository files given): the pair `(r, s)` of big integers
produced by elliptic-curve signing. -/
structure Signature where
  R : Int
  S : Int

/-- An `ecdsa.PublicKey` as the data the verified code reads from it: the two
curve-point coordinates (the curve itself is fixed, P-256). -/
structure PublicKey where
  X : Int
  Y : Int

/-- The elements of a Go `[]*Transaction`, with `nil` holding none
(`len(nil) = 0`, `append(nil, t) = [t]`). -/
def poolList (p : Option (List Transaction)) : List Transaction := p.getD []

/-! ## Serialization for hashing (`Block.MarshalJSON`, `Block.Hash`)

`Transaction` has a method named `MarshaJSON` — not `MarshalJSON` — so it does
not implement `json.Marshaler`, and every one of its fields is unexported:
`encoding/json` therefore encodes every `*Transaction` as the two bytes of an
empty object, whatever the sender, recipient and value are. -/

/-- The bytes `json.Marshal` produces for a `*Transaction` (see above: the
empty JSON object, for every transaction). -/
def marshalTransactionGo (_t : Transaction) : List Nat := strBytes "\x7b\x7d"

def marshalTxList : Option (List Transaction) → List Nat
  | none => strBytes "null"
  | some l => strBytes "[" ++ List.intercalate (strBytes ",") (l.map marshalTransactionGo) ++ strBytes "]"

/-- The bytes of `json.Marshal` on a `*Block` (the `Block.MarshalJSON` method:
keys `timestamp`, `nonce`, `previous-hash`, `transactions`, in that order,
compactly, the previous hash in lowercase hex). -/
def Block.marshalJSON (b : Block) : List Nat :=
  strBytes "\x7b\"timestamp\":" ++ intDec b.timestamp ++
  strBytes ",\"nonce\":" ++ intDec b.nonce ++
  strBytes ",\"previous-hash\":\"" ++ hexOfBytes b.previousHash ++
  strBytes "\",\"transactions\":" ++ marshalTxList b.transactions ++ strBytes "\x7d"

/-- `Block.Hash`: SHA-256 of the block's JSON marshaling. -/
def Block.hash (b : Block) : List Nat := sha256 b.marshalJSON

/-- The digest `VerityTransactionSignature` verifies (and
`wallet.Transaction.GenerateSignature` signs): SHA-256 of
`json.Marshal` of the transaction. -/
def verificationDigest (t : Transaction) : List Nat := sha256 (marshalTransactionGo t)

/-- `Blockchain.VerityTransactionSignature`.  `ecdsa.Verify` (Go standard
library) is the parameter `ev`, applied to the public key, the digest and the
signature; the quantification over `ev` in the theorems covers every behavior
of the real verifier. -/
def verityTransactionSignature (ev : PublicKey → List Nat → Signature → Bool)
    (senderPublicKey : PublicKey) (s : Signature) (t : Transaction) : Bool :=
  ev senderPublicKey (verificationDigest t) s

/-! ## Core operations of `Blockchain` -/

/-- The `&Block{}` zero value hashed for the genesis block's previous hash. -/
def zeroBlock : Block := ⟨0, 0, List.replicate 32 0, none⟩

/-- Pool append, as `append(bc.transactionPool, t)`. -/
def pushTx (bc : Blockchain) (t : Transaction) : Blockchain :=
  { bc with transactionPool := some (poolList bc.transactionPool ++ [t]) }

/-- `Blockchain.AddTransaction`.  The Go signature takes possibly-`nil`
pointers for the key and signature; on the non-mining path a `nil` signature
(or key) makes `s.R` / `ecdsa.Verify` dereference `nil` and panic, hence
`none`. -/
def addTransaction (ev : PublicKey → List Nat → Signature → Bool) (bc : Blockchain)
    (sender recipient : String) (value : Rat)
    (senderPublicKey : Option PublicKey) (s : Option Signature) : Option (Bool × Blockchain) :=
  let t : Transaction := ⟨sender, recipient, value⟩
  if sender = miningSender then some (true, pushTx bc t)
  else
    match senderPublicKey, s with
    | some k, some sg =>
      if verityTransactionSignature ev k sg t then some (true, pushTx bc t)
      else some (false, bc)
    | _, _ => none

/-- `Blockchain.CopyTransactionPool`: fresh `Transaction` records with the same
three fields. -/
def copyTransactionPool (p : Option (List Transaction)) : Option (List Transaction) :=
  some ((poolList p).map (fun t =>
    ⟨t.senderBlockchainAddress, t.recipientBlockchainAddress, t.value⟩))

/-- `Blockchain.ValidProof`: hex hash of the candidate block `{0, nonce,
previousHash, transactions}`; Go slices the hex string to `difficulty` bytes,
which panics (`none`) when `difficulty` exceeds its length. -/
def validProof (nonce : Int) (previousHash : List Nat)
    (transactions : Option (List Transaction)) (difficulty : Nat) : Option Bool :=
  let guessHashStr := hexOfBytes (Block.hash ⟨0, nonce, previousHash, transactions⟩)
  if difficulty ≤ guessHashStr.length then
    some (guessHashStr.take difficulty == List.replicate difficulty 48)
  else none

/-- The `for !bc.ValidProof(...) { nonce += 1 }` search of
`Blockchain.ProofOfWork`, from `nonce`, with fuel (the Go loop is unbounded). -/
def powLoop (previousHash : List Nat) (transactions : Option (List Transaction)) :
    Nat → Nat → Option Nat
  | 0, _ => none
  | fuel + 1, nonce =>
    if validProof (nonce : Int) previousHash transactions miningDifficulty = some true
    then some nonce
    else powLoop previousHash transactions fuel (nonce + 1)

/-- `Blockchain.ProofOfWork`: pool copy, last block's hash (`LastBlock` reads
`chain[len-1]`, panicking on an empty chain), search from nonce 0. -/
def proofOfWork (bc : Blockchain) (fuel : Nat) : Option Nat :=
  let transactions := copyTransactionPool bc.transactionPool
  match bc.chain.getLast? with
  | none => none
  | some lastBlock => powLoop lastBlock.hash transactions fuel 0

/-- `Blockchain.CreateBlock` (`ts` is the `time.Now().UnixNano()` of
`NewBlock`): appends the new block carrying the whole pool, then resets the
pool to an empty non-nil slice; the DELETE notifications to neighbors touch no
local state. -/
def createBlock (ts : Int) (bc : Blockchain) (nonce : Int) (previousHash : List Nat) :
    Block × Blockchain :=
  let b : Block := ⟨ts, nonce, previousHash, bc.transactionPool⟩
  (b, { bc with chain := bc.chain ++ [b], transactionPool := some [] })

/-- `NewBlockchain`: empty chain and nil pool, then `CreateBlock(0,
Hash(&Block{}))`, then the port. -/
def newBlockchain (blockchainAddress : String) (port : Nat) (ts : Int) : Blockchain :=
  let bc0 : Blockchain := ⟨none, [], blockchainAddress, 0, []⟩
  let bc1 := (createBlock ts bc0 0 zeroBlock.hash).2
  { bc1 with port := port }

/-- `Blockchain.Mining` (`ts` the reward block's creation instant, `fuel` for
the proof-of-work search): empty pool short-circuit, reward transaction from
`MiningSender` with `nil` key and signature, search, append. -/
def mining (ev : PublicKey → List Nat → Signature → Bool) (ts : Int) (fuel : Nat)
    (bc : Blockchain) : Option (Bool × Blockchain) :=
  if (poolList bc.transactionPool).length = 0 then some (false, bc)
  else
    match addTransaction ev bc miningSender bc.blockchainAddress miningReward none none with
    | none => none
    | some (_, bc1) =>
      match proofOfWork bc1 fuel, bc1.chain.getLast? with
      | some nonce, some lastBlock => some (true, (createBlock ts bc1 (nonce : Int) lastBlock.hash).2)
      | _, _ => none

/-- The walk of `Blockchain.ValidChain` from index 1, `preBlock` the block
behind the cursor. -/
def validChainLoop (preBlock : Block) : List Block → Bool
  | [] => true
  | b :: rest =>
    if b.previousHash ≠ preBlock.hash then false
    else if validProof b.nonce b.previousHash b.transactions miningDifficulty ≠ some true then false
    else validChainLoop b rest

/-- `Blockchain.ValidChain` reads `chain[0]` before the walk, panicking
(`none`) on an empty chain. -/
def validChain : List Block → Option Bool
  | [] => none
  | b :: rest => some (validChainLoop b rest)

/-- One neighbor's fetch during `ResolveConflicts`: `none` is a transport
error from `http.Get` (the response pointer is `nil`), `some (status, chain)`
a response with its decoded chain (`resp.Body` is arbitrary bytes, so the
decoded chain ranges over all block lists). -/
abbrev FetchResult := Option (Nat × List Block)

/-- The neighbor scan of `Blockchain.ResolveConflicts`.  On a transport error
the code reads `resp.StatusCode` from the `nil` response and panics: `none`. -/
def rcLoop : List FetchResult → Nat → Option (List Block) → Option (Option (List Block))
  | [], _, longestChain => some longestChain
  | none :: _, _, _ => none
  | some (status, chain) :: rest, maxLength, longestChain =>
    if status = 200 then
      if maxLength < chain.length ∧ validChain chain = some true then
        rcLoop rest chain.length (some chain)
      else rcLoop rest maxLength longestChain
    else rcLoop rest maxLength longestChain

/-- `Blockchain.ResolveConflicts` over the fetch results of `bc.neighbors`. -/
def resolveConflicts (responses : List FetchResult) (bc : Blockchain) :
    Option (Bool × Blockchain) :=
  match rcLoop responses bc.chain.length none with
  | none => none
  | some none => some (false, bc)
  | some (some longestChain) => some (true, { bc with chain := longestChain })

/-! ## JSON values and `Block.UnmarshalJSON`

`encoding/json` parses the wire bytes into a JSON value; the value model below
is that parse tree (numbers as rationals: the verified decoding only reads
integers and addresses).  `Block.UnmarshalJSON` then reads `timestamp`,
`nonce`, `previous_hash` (with the underscore) and `transactions`, ignoring
unknown keys, keeping a field's zero value when its key is absent, and
propagating a type mismatch as an error; it then hex-decodes the previous-hash
string with the error ignored and slices the first 32 decoded bytes, which
panics when fewer than 32 were decoded. -/

inductive Json where
  | null : Json
  | bool (b : Bool) : Json
  | num (q : Rat) : Json
  | str (s : String) : Json
  | arr (elems : List Json) : Json
  | obj (fields : List (String × Json)) : Json

/-- Key lookup in a decoded object: on a duplicated key `encoding/json` keeps
the last occurrence. -/
def getField (fields : List (String × Json)) (key : String) : Option Json :=
  ((fields.filter (fun p => p.1 = key)).getLast?).map (fun p => p.2)

/-- Go `encoding/hex.fromHexChar`. -/
def hexVal (c : Nat) : Option Nat :=
  if 48 ≤ c ∧ c ≤ 57 then some (c - 48)
  else if 97 ≤ c ∧ c ≤ 102 then some (c - 87)
  else if 65 ≤ c ∧ c ≤ 70 then some (c - 55)
  else none

/-- Go `hex.DecodeString` with its error discarded (`ph, _ := ...`): the bytes
decoded before the first bad pair or odd tail. -/
def hexDecodeAux : List Nat → List Nat
  | a :: b :: rest =>
    (match hexVal a, hexVal b with
     | some x, some y => (16 * x + y) :: hexDecodeAux rest
     | _, _ => [])
  | _ => []

def hexDecodeString (s : String) : List Nat := hexDecodeAux (strBytes s)

/-- Decoding a JSON value into an `int64` / `int` field: `some none` when the
key was absent (field left at its zero value), `none` on a type mismatch. -/
def decIntField : Option Json → Option (Option Int)
  | none => some none
  | some (.num q) => if q.den = 1 then some (some q.num) else none
  | some _ => none

def decStrField : Option Json → Option (Option String)
  | none => some none
  | some (.str s) => some (some s)
  | some _ => none

def decNumField : Option Json → Option (Option Rat)
  | none => some none
  | some (.num q) => some (some q)
  | some _ => none

/-- `Transaction.UnmarshalJSON` on one array element (an object; absent keys
leave the zero values). -/
def decTx : Json → Option Transaction
  | .obj fields =>
    (match decStrField (getField fields "sender_blockchain_address"),
           decStrField (getField fields "recipient_blockchain_address"),
           decNumField (getField fields "value") with
     | some s, some r, some v => some ⟨s.getD "", r.getD "", v.getD 0⟩
     | _, _, _ => none)
  | _ => none

def decTxList : List Json → Option (List Transaction)
  | [] => some []
  | x :: xs =>
    (match decTx x, decTxList xs with
     | some t, some ts => some (t :: ts)
     | _, _ => none)

/-- Decoding the `transactions` key into `[]*Transaction`: `null` and an
absent key both leave the slice `nil`. -/
def decTxsField : Option Json → Option (Option (List Transaction))
  | none => some none
  | some .null => some none
  | some (.arr xs) => (decTxList xs).map some
  | some _ => none

/-- What `Block.UnmarshalJSON` does: decode into a `Block`, return an error,
or panic on the `ph[:32]` slice. -/
inductive URes where
  | ok (b : Block) : URes
  | err : URes
  | panic : URes
deriving DecidableEq

/-- `Block.UnmarshalJSON` on a parsed JSON value (a fresh receiver, fields at
their zero values). -/
def unmarshalBlock (j : Json) : URes :=
  match j with
  | .null => URes.panic
  | .obj fields =>
    (match decIntField (getField fields "timestamp"), decIntField (getField fields "nonce"),
           decStrField (getField fields "previous_hash"),
           decTxsField (getField fields "transactions") with
     | some ts, some nn, some phs, some txs =>
       let ph := hexDecodeString (phs.getD "")
       if ph.length < 32 then URes.panic
       else URes.ok ⟨ts.getD 0, nn.getD 0, ph.take 32, txs⟩
     | _, _, _, _ => URes.err)
  | _ => URes.err

def hexStringOfBytes (l : List Nat) : String := ⟨(hexOfBytes l).map Char.ofNat⟩

/-- The fields `Block.MarshalJSON` writes, as a parsed JSON object (note the
key `previous-hash`, with the hyphen). -/
def marshalBlockFields (b : Block) : List (String × Json) :=
  [("timestamp", Json.num (b.timestamp : Rat)), ("nonce", Json.num (b.nonce : Rat)),
   ("previous-hash", Json.str (hexStringOfBytes b.previousHash)),
   ("transactions", match b.transactions with
     | none => Json.null
     | some l => Json.arr (l.map (fun _ => Json.obj [])))]

def marshalBlockJson (b : Block) : Json := Json.obj (marshalBlockFields b)

/-! ## Reachable blockchain states

The states the core operations produce: construction (`NewBlockchain`),
transaction admission, mining, and conflict resolution.  Timestamps, fuel,
the signature verifier and the neighbors' responses are arbitrary at every
step. -/

inductive Reachable : Blockchain → Prop where
  | genesis (blockchainAddress : String) (port : Nat) (ts : Int) :
      Reachable (newBlockchain blockchainAddress port ts)
  | addTx (ev : PublicKey → List Nat → Signature → Bool) (bc : Blockchain)
      (sender recipient : String) (value : Rat) (pk : Option PublicKey)
      (s : Option Signature) (ok : Bool) (bc' : Blockchain) :
      Reachable bc → addTransaction ev bc sender recipient value pk s = some (ok, bc') →
      Reachable bc'
  | mine (ev : PublicKey → List Nat → Signature → Bool) (ts : Int) (fuel : Nat)
      (bc : Blockchain) (ok : Bool) (bc' : Blockchain) :
      Reachable bc → mining ev ts fuel bc = some (ok, bc') → Reachable bc'
  | resolve (responses : List FetchResult) (bc : Blockchain) (ok : Bool) (bc' : Blockchain) :
      Reachable bc → resolveConflicts responses bc = some (ok, bc') → Reachable bc'

/-! ## Concrete blocks and chains used at concrete inputs -/

/-- A block with zeroed previous hash and an empty (non-nil) transaction
list. -/
def gBlockC : Block := ⟨0, 0, List.replicate 32 0, some []⟩

def hashG : List Nat := [195, 76, 122, 111, 105, 41, 28, 15, 232, 230, 19, 121, 199, 39, 76, 131, 28, 89, 228, 186, 41, 71, 247, 152, 41, 167, 123, 184, 228, 55, 44, 1]

def hashB1 : List Nat := [0, 13, 189, 111, 1, 126, 8, 198, 99, 118, 27, 182, 81, 145, 4, 63, 137, 216, 250, 115, 187, 75, 182, 34, 109, 42, 21, 154, 158, 162, 182, 190]

def hashB2 : List Nat := [0, 8, 205, 156, 205, 251, 8, 54, 160, 225, 108, 61, 84, 251, 248, 192, 49, 140, 109, 212, 87, 142, 179, 159, 45, 99, 17, 136, 10, 125, 62, 50]

def blockC1 : Block := ⟨0, 5327, hashG, some []⟩

def blockC2 : Block := ⟨0, 1970, hashB1, some []⟩

def blockC3 : Block := ⟨0, 11214, hashB2, some []⟩

/-- A four-block chain that passes `ValidChain` (each block's timestamp is 0,
so each block coincides with its proof-of-work candidate). -/
def goodFour : List Block := [gBlockC, blockC1, blockC2, blockC3]

/-- Five copies of `gBlockC`: longer, but the very first link fails. -/
def badFive : List Block := List.replicate 5 gBlockC

def localBc : Blockchain := ⟨some [], List.replicate 3 zeroBlock, "node", 5000, []⟩

/-! ## Basic lemmas -/

theorem digestOf_length (s : Hs) : (digestOf s).length = 32 := rfl

theorem sha256_length (msg : List Nat) : (sha256 msg).length = 32 := digestOf_length _

theorem blockHash_length (b : Block) : b.hash.length = 32 := sha256_length _

theorem hexOfBytes_length (l : List Nat) : (hexOfBytes l).length = 2 * l.length := by
  induction l with
  | nil => rfl
  | cons a t ih =>
    simp only [hexOfBytes, List.flatMap_cons, List.length_append, List.length_cons,
      List.length_nil] at ih ⊢
    omega

theorem hexHash_length (b : Block) : (hexOfBytes b.hash).length = 64 := by
  rw [hexOfBytes_length, blockHash_length]

/-- A fixed signature verifier for concrete inputs. -/
def ev0 : PublicKey → List Nat → Signature → Bool := fun _ _ _ => false

/-! ## Claim theorems -/

/-- C1 (the code falls short of it): the digest `VerityTransactionSignature`
verifies is SHA-256 of `json.Marshal` of the transaction, but that marshaling
is the constant empty object `\x7b\x7d` (the canonical three-field encoder is
the method `MarshaJSON`, whose misspelled name keeps `encoding/json` from ever
calling it, and all three fields are unexported).  So two transactions that
differ in all three fields still get the same verification digest. -/
theorem c1_constant_digest :
    ((⟨"A", "B", 1⟩ : Transaction) ≠ ⟨"C", "D", 2⟩)
    ∧ verificationDigest ⟨"A", "B", 1⟩ = verificationDigest ⟨"C", "D", 2⟩
    ∧ marshalTransactionGo ⟨"A", "B", 1⟩ = strBytes "\x7b\x7d" :=
  ⟨by decide, rfl, rfl⟩

def bcSix : Blockchain := ⟨some [], [zeroBlock], "node", 5001, []⟩

/-- C6 (the code falls short of it): on a transport failure `http.Get` returns
a nil response whose `StatusCode` field `ResolveConflicts` reads anyway, so
one failed fetch panics (`none`) instead of being skipped — while with no
failing fetch the scan completes and reports a boolean. -/
theorem c6_transport_failure_panics :
    resolveConflicts [none] bcSix = none
    ∧ resolveConflicts [] bcSix = some (false, bcSix) :=
  ⟨rfl, rfl⟩

/-- C8: with an empty transaction pool, `Mining` returns false at once and the
whole state is returned unchanged. -/
theorem c8_mining_empty_pool (ev : PublicKey → List Nat → Signature → Bool) (ts : Int)
    (fuel : Nat) (bc : Blockchain) (h : (poolList bc.transactionPool).length = 0) :
    mining ev ts fuel bc = some (false, bc) := by
  unfold mining
  rw [if_pos h]

def bcEmptyPool : Blockchain := ⟨some [], [zeroBlock], "node", 5002, []⟩

theorem c8_mining_empty_pool_witness :
    mining ev0 0 5 bcEmptyPool = some (false, bcEmptyPool) :=
  c8_mining_empty_pool ev0 0 5 bcEmptyPool (by decide)

/-- C9: `ValidChain` reads `chain[0]` before its walk: on an empty candidate
it panics (`none`) instead of returning a boolean, and on any non-empty
candidate it returns a boolean. -/
theorem c9_validchain_empty_panics :
    validChain [] = none
    ∧ ∀ (b : Block) (rest : List Block), (validChain (b :: rest)).isSome = true :=
  ⟨rfl, fun _ _ => rfl⟩

theorem powLoop_some_iff (ph : List Nat) (txs : Option (List Transaction)) :
    ∀ (fuel start n : Nat), powLoop ph txs fuel start = some n ↔
      (validProof (n : Int) ph txs miningDifficulty = some true ∧ start ≤ n ∧ n < start + fuel ∧
       ∀ j : Nat, start ≤ j → j < n → validProof (j : Int) ph txs miningDifficulty ≠ some true) := by
  intro fuel
  induction fuel with
  | zero =>
    intro start n
    simp only [powLoop]
    constructor
    · intro h; cases h
    · rintro ⟨-, h1, h2, -⟩; omega
  | succ fuel ih =>
    intro start n
    rw [powLoop]
    by_cases h : validProof (start : Int) ph txs miningDifficulty = some true
    · rw [if_pos h]
      constructor
      · intro he
        have hn : start = n := by cases he; rfl
        subst hn
        exact ⟨h, le_refl _, by omega, fun j h1 h2 _ => by omega⟩
      · rintro ⟨hv, hle, -, hmin⟩
        have hn : n = start := by
          by_contra hne
          exact hmin start (le_refl _) (by omega) h
        rw [hn]
    · rw [if_neg h, ih (start + 1) n]
      constructor
      · rintro ⟨hv, hle, hlt, hmin⟩
        refine ⟨hv, by omega, by omega, fun j h1 h2 => ?_⟩
        rcases Nat.eq_or_lt_of_le h1 with h1' | h1'
        · rw [← h1']; exact h
        · exact hmin j h1' h2
      · rintro ⟨hv, hle, hlt, hmin⟩
        have hne : n ≠ start := fun he => h (he ▸ hv)
        exact ⟨hv, by omega, by omega, fun j h1 h2 => hmin j (by omega) h2⟩

/-- C3: for every difficulty, previous hash and transaction list, `ValidProof`
returns true exactly when the hex SHA-256 hash of the candidate block with
timestamp 0 has that many leading `0` characters (for a difficulty beyond the
64 hex digits it panics, and no such prefix exists either); and whenever the
`ProofOfWork` search from nonce 0 over the pool copy and the last block's hash
returns, its result is the smallest non-negative nonce passing `ValidProof`. -/
theorem c3_validproof_pow :
    (∀ (nonce : Int) (ph : List Nat) (txs : Option (List Transaction)) (d : Nat),
       validProof nonce ph txs d = some true ↔
         (hexOfBytes (Block.hash ⟨0, nonce, ph, txs⟩)).take d = List.replicate d 48)
    ∧ (∀ (bc : Blockchain) (fuel n : Nat),
       proofOfWork bc fuel = some n ↔
         ∃ lastBlock, bc.chain.getLast? = some lastBlock ∧
           validProof (n : Int) lastBlock.hash (copyTransactionPool bc.transactionPool)
             miningDifficulty = some true ∧ n < fuel ∧
           ∀ m : Nat, m < n →
             validProof (m : Int) lastBlock.hash (copyTransactionPool bc.transactionPool)
               miningDifficulty ≠ some true) := by
  constructor
  · intro nonce ph txs d
    have hlen : (hexOfBytes (Block.hash ⟨0, nonce, ph, txs⟩)).length = 64 := hexHash_length _
    simp only [validProof]
    by_cases hd : d ≤ (hexOfBytes (Block.hash ⟨0, nonce, ph, txs⟩)).length
    · rw [if_pos hd]
      simp [beq_iff_eq]
    · rw [if_neg hd]
      constructor
      · intro h; cases h
      · intro h
        exfalso
        have hl := congrArg List.length h
        rw [List.length_take, List.length_replicate, hlen] at hl
        omega
  · intro bc fuel n
    simp only [proofOfWork]
    cases hlb : bc.chain.getLast? with
    | none =>
      constructor
      · intro h; cases h
      · rintro ⟨lb, hlb', -⟩; cases hlb'
    | some lb =>
      rw [powLoop_some_iff]
      constructor
      · rintro ⟨hv, -, hlt, hmin⟩
        exact ⟨lb, rfl, hv, by omega, fun m hm => hmin m (by omega) hm⟩
      · rintro ⟨lb', hlb', hv, hlt, hmin⟩
        have he : lb' = lb := by cases hlb'; rfl
        subst he
        exact ⟨hv, by omega, by omega, fun j _ hj => hmin j hj⟩

/-- C7: a transaction from the reserved mining sender is appended and accepted
with no look at any signature (the verifier `ev`, key and signature are
arbitrary, even absent); for any other sender with key and signature present,
the result is exactly the verifier's verdict on the sender key and the
transaction digest, appending on success and leaving the pool untouched (and
raising nothing) on failure. -/
theorem c7_add_transaction :
    (∀ (ev : PublicKey → List Nat → Signature → Bool) (bc : Blockchain)
       (recipient : String) (value : Rat) (pk : Option PublicKey) (s : Option Signature),
       addTransaction ev bc miningSender recipient value pk s =
         some (true, pushTx bc ⟨miningSender, recipient, value⟩))
    ∧ (∀ (ev : PublicKey → List Nat → Signature → Bool) (bc : Blockchain)
       (sender recipient : String) (value : Rat) (k : PublicKey) (sg : Signature),
       sender ≠ miningSender →
       addTransaction ev bc sender recipient value (some k) (some sg) =
         some (ev k (verificationDigest ⟨sender, recipient, value⟩) sg,
           if ev k (verificationDigest ⟨sender, recipient, value⟩) sg then
             pushTx bc ⟨sender, recipient, value⟩
           else bc)) := by
  constructor
  · intro ev bc recipient value pk s
    simp [addTransaction]
  · intro ev bc sender recipient value k sg hs
    simp only [addTransaction, if_neg hs, verityTransactionSignature]
    by_cases hv : ev k (verificationDigest ⟨sender, recipient, value⟩) sg <;> simp [hv]

theorem decTxList_replicate (n : Nat) :
    decTxList (List.replicate n (Json.obj [])) =
      some (List.replicate n (⟨"", "", 0⟩ : Transaction)) := by
  induction n with
  | zero => rfl
  | succ n ih => simp only [List.replicate, decTxList, ih]; rfl

theorem unmarshalBlock_short_hash_panics (fields : List (String × Json))
    (ts nn : Option Int) (phs : Option String) (txs : Option (List Transaction))
    (h1 : decIntField (getField fields "timestamp") = some ts)
    (h2 : decIntField (getField fields "nonce") = some nn)
    (h3 : decStrField (getField fields "previous_hash") = some phs)
    (h4 : decTxsField (getField fields "transactions") = some txs)
    (h5 : (hexDecodeString (phs.getD "")).length < 32) :
    unmarshalBlock (Json.obj fields) = URes.panic := by
  simp only [unmarshalBlock, h1, h2, h3, h4]
  rw [if_pos h5]

/-- C10: `Block.MarshalJSON` writes the previous hash under `previous-hash`
while `Block.UnmarshalJSON` reads `previous_hash`, so decoding marshaled
output finds no previous hash at all, hex-decodes the empty string, and the
`ph[:32]` slice panics — as it does on every otherwise well-typed object whose
`previous_hash` is absent or hex-decodes to fewer than 32 bytes; marshaled
bytes therefore never decode back to a block at all, let alone recover the
previous hash. -/
theorem c10_block_json_roundtrip :
    (∀ b : Block, getField (marshalBlockFields b) "previous_hash" = none
       ∧ getField (marshalBlockFields b) "previous-hash" =
           some (Json.str (hexStringOfBytes b.previousHash)))
    ∧ (∀ b : Block, unmarshalBlock (marshalBlockJson b) = URes.panic)
    ∧ (∀ (fields : List (String × Json)) (ts nn : Option Int) (phs : Option String)
         (txs : Option (List Transaction)),
       decIntField (getField fields "timestamp") = some ts →
       decIntField (getField fields "nonce") = some nn →
       decStrField (getField fields "previous_hash") = some phs →
       decTxsField (getField fields "transactions") = some txs →
       (hexDecodeString (phs.getD "")).length < 32 →
       unmarshalBlock (Json.obj fields) = URes.panic) := by
  refine ⟨fun b => ⟨rfl, rfl⟩, fun b => ?_, unmarshalBlock_short_hash_panics⟩
  have h1 : decIntField (getField (marshalBlockFields b) "timestamp") =
      some (some b.timestamp) := by
    simp [getField, marshalBlockFields, decIntField, Rat.den_intCast, Rat.num_intCast]
  have h2 : decIntField (getField (marshalBlockFields b) "nonce") =
      some (some b.nonce) := by
    simp [getField, marshalBlockFields, decIntField, Rat.den_intCast, Rat.num_intCast]
  have h3 : decStrField (getField (marshalBlockFields b) "previous_hash") = some none := rfl
  have h4 : ∃ txs, decTxsField (getField (marshalBlockFields b) "transactions") = some txs := by
    cases hb : b.transactions with
    | none =>
      refine ⟨none, ?_⟩
      simp [getField, marshalBlockFields, hb, decTxsField]
    | some l =>
      refine ⟨some (List.replicate l.length (⟨"", "", 0⟩ : Transaction)), ?_⟩
      simp [getField, marshalBlockFields, hb, decTxsField, decTxList_replicate]
  obtain ⟨txs, h4⟩ := h4
  exact unmarshalBlock_short_hash_panics _ _ _ _ _ h1 h2 h3 h4 (by decide)

theorem copy_id (l : List Transaction) :
    l.map (fun t => (⟨t.senderBlockchainAddress, t.recipientBlockchainAddress,
      t.value⟩ : Transaction)) = l := by
  induction l with
  | nil => rfl
  | cons a t ih => cases a; simp [ih]

theorem copyTransactionPool_eq (p : Option (List Transaction)) :
    copyTransactionPool p = some (poolList p) := by
  rw [copyTransactionPool, copy_id]

theorem mining_spec (ev : PublicKey → List Nat → Signature → Bool) (ts : Int) (fuel : Nat)
    (bc : Blockchain) (ok : Bool) (bc' : Blockchain)
    (h : mining ev ts fuel bc = some (ok, bc')) :
    (ok = false ∧ bc' = bc) ∨
    (ok = true ∧ ∃ (lb : Block) (nonce : Nat),
      bc.chain.getLast? = some lb ∧
      powLoop lb.hash
        (copyTransactionPool
          (pushTx bc ⟨miningSender, bc.blockchainAddress, miningReward⟩).transactionPool)
        fuel 0 = some nonce ∧
      bc' = { bc with
        chain := bc.chain ++ [⟨ts, (nonce : Int), lb.hash,
          (pushTx bc ⟨miningSender, bc.blockchainAddress, miningReward⟩).transactionPool⟩],
        transactionPool := some [] }) := by
  unfold mining at h
  by_cases hp : (poolList bc.transactionPool).length = 0
  · rw [if_pos hp] at h
    left
    injection h with h1
    injection h1 with h2 h3
    exact ⟨h2.symm, h3.symm⟩
  · rw [if_neg hp] at h
    have ha : addTransaction ev bc miningSender bc.blockchainAddress miningReward none none
        = some (true, pushTx bc ⟨miningSender, bc.blockchainAddress, miningReward⟩) := by
      simp [addTransaction]
    split at h
    · cases h
    · rename_i fst bc1 heq
      rw [ha] at heq
      injection heq with heq1
      injection heq1 with heqf heqb
      subst heqb
      split at h
      · rename_i nonce lb hpw hlb
        injection h with h1
        injection h1 with h2 h3
        right
        refine ⟨h2.symm, lb, nonce, hlb, ?_, ?_⟩
        · unfold proofOfWork at hpw
          rw [hlb] at hpw
          exact hpw
        · exact h3.symm
      · cases h

/-- C4: whenever `Mining` returns true, the pool has been emptied, the chain
grew by exactly the one new block, and that block's transactions are the prior
pool followed by the single reward transaction from the reserved mining sender
to this node's own address, of the fixed reward value. -/
theorem c4_mining_success (ev : PublicKey → List Nat → Signature → Bool) (ts : Int)
    (fuel : Nat) (bc bc' : Blockchain) (h : mining ev ts fuel bc = some (true, bc')) :
    bc'.transactionPool = some [] ∧
    bc'.chain.length = bc.chain.length + 1 ∧
    ∃ b : Block, bc'.chain = bc.chain ++ [b] ∧
      b.transactions = some (poolList bc.transactionPool ++
        [⟨miningSender, bc.blockchainAddress, miningReward⟩]) := by
  rcases mining_spec ev ts fuel bc true bc' h with ⟨hfalse, -⟩ | ⟨-, lb, nonce, -, -, rfl⟩
  · simp at hfalse
  · exact ⟨rfl, by simp, ⟨_, rfl, rfl⟩⟩

def txX : Transaction := ⟨"x", "y", 1⟩

def blockB0 : Block := ⟨0, 1235, List.replicate 32 0, some []⟩

def hashB0 : List Nat := [205, 203, 187, 160, 99, 163, 217, 239, 132, 7, 229, 155, 76, 196, 40, 188, 85, 18, 63, 101, 89, 6, 13, 200, 38, 83, 149, 148, 238, 93, 227, 88]

def stMine : Blockchain := ⟨some [txX], [blockB0], "m", 7001, []⟩

def stMined : Blockchain :=
  ⟨some [], [blockB0, ⟨5, 4, hashB0, some [txX, ⟨miningSender, "m", miningReward⟩]⟩], "m", 7001, []⟩

set_option maxRecDepth 200000 in
theorem c4_mining_success_witness :
    stMined.transactionPool = some [] ∧
    stMined.chain.length = stMine.chain.length + 1 ∧
    ∃ b : Block, stMined.chain = stMine.chain ++ [b] ∧
      b.transactions = some (poolList stMine.transactionPool ++
        [⟨miningSender, stMine.blockchainAddress, miningReward⟩]) :=
  c4_mining_success ev0 5 20 stMine stMined (by decide)

/-! ## Chain invariants -/

/-- The spec's stated invariant over a chain, read literally: linkage, and the
block's own identity hash (timestamp included) has `miningDifficulty` leading
zero hex digits. -/
def chainHashInv (c : List Block) : Prop :=
  ∀ i, 0 < i → i < c.length →
    (c.getD i zeroBlock).previousHash = (c.getD (i - 1) zeroBlock).hash ∧
    (hexOfBytes (c.getD i zeroBlock).hash).take miningDifficulty =
      List.replicate miningDifficulty 48

/-- What the code actually maintains: linkage, and `ValidProof` on the block's
nonce, previous hash and transactions (the hash of the timestamp-zeroed
candidate has the leading zeros, not the identity hash). -/
def chainLinkedPow (c : List Block) : Prop :=
  ∀ i, 0 < i → i < c.length →
    (c.getD i zeroBlock).previousHash = (c.getD (i - 1) zeroBlock).hash ∧
    validProof (c.getD i zeroBlock).nonce (c.getD i zeroBlock).previousHash
      (c.getD i zeroBlock).transactions miningDifficulty = some true

theorem chainLinkedPow_short (c : List Block) (h : c.length ≤ 1) : chainLinkedPow c := by
  intro i h0 hi
  omega

theorem getD_of_getLast? : ∀ (l : List Block) (lb : Block), l.getLast? = some lb →
    l.getD (l.length - 1) zeroBlock = lb
  | [], lb, h => by cases h
  | [a], lb, h => by
    cases h
    rfl
  | a :: x :: xs, lb, h => by
    rw [List.getLast?_cons_cons] at h
    have ih := getD_of_getLast? (x :: xs) lb h
    simp only [List.length_cons] at ih ⊢
    simpa using ih

theorem chainLinkedPow_append (c : List Block) (b lb : Block)
    (hc : chainLinkedPow c) (hlast : c.getLast? = some lb)
    (hlink : b.previousHash = lb.hash)
    (hpow : validProof b.nonce b.previousHash b.transactions miningDifficulty = some true) :
    chainLinkedPow (c ++ [b]) := by
  have hne : c ≠ [] := by rintro rfl; cases hlast
  have hlen : 0 < c.length := List.length_pos.mpr hne
  intro i h0 hi
  rw [List.length_append, List.length_singleton] at hi
  by_cases hil : i < c.length
  · rw [List.getD_append _ _ _ _ hil, List.getD_append _ _ _ _ (by omega)]
    exact hc i h0 hil
  · have hieq : i = c.length := by omega
    subst hieq
    rw [List.getD_append_right _ _ _ _ (le_refl _), Nat.sub_self,
      List.getD_append _ _ _ _ (by omega), getD_of_getLast? c lb hlast]
    exact ⟨hlink, hpow⟩

theorem validChainLoop_spec : ∀ (t : List Block) (h : Block),
    validChainLoop h t = true → chainLinkedPow (h :: t)
  | [], h, _ => chainLinkedPow_short _ (by simp)
  | b :: rest, h, hv => by
    rw [validChainLoop] at hv
    by_cases h1 : b.previousHash ≠ h.hash
    · rw [if_pos h1] at hv; cases hv
    · rw [if_neg h1] at hv
      by_cases h2 : validProof b.nonce b.previousHash b.transactions miningDifficulty ≠ some true
      · rw [if_pos h2] at hv; cases hv
      · rw [if_neg h2] at hv
        push_neg at h1 h2
        have ih := validChainLoop_spec rest b hv
        intro i h0 hi
        match i, h0 with
        | 1, _ => exact ⟨h1, h2⟩
        | (j + 2), _ =>
          simp only [List.length_cons] at hi
          have := ih (j + 1) (by omega) (by simpa using by omega)
          simpa using this

theorem validChain_linked (c : List Block) (h : validChain c = some true) :
    chainLinkedPow c := by
  cases c with
  | nil => cases h
  | cons b t =>
    injection h with h1
    exact validChainLoop_spec t b h1

theorem addTransaction_chain (ev : PublicKey → List Nat → Signature → Bool) (bc : Blockchain)
    (sender recipient : String) (value : Rat) (pk : Option PublicKey) (s : Option Signature)
    (ok : Bool) (bc' : Blockchain)
    (h : addTransaction ev bc sender recipient value pk s = some (ok, bc')) :
    bc'.chain = bc.chain := by
  simp only [addTransaction] at h
  split at h
  · injection h with h1
    injection h1 with h2 h3
    rw [← h3]
    rfl
  · split at h
    · split at h
      · injection h with h1
        injection h1 with h2 h3
        rw [← h3]
        rfl
      · injection h with h1
        injection h1 with h2 h3
        rw [← h3]
    · cases h

theorem rcLoop_best_valid : ∀ (rs : List FetchResult) (maxLen : Nat)
    (best res : Option (List Block)), rcLoop rs maxLen best = some res →
    (∀ c, best = some c → validChain c = some true) →
    ∀ c, res = some c → validChain c = some true
  | [], maxLen, best, res, h, hb => by
    injection h with h1
    rw [← h1]
    exact hb
  | none :: rest, maxLen, best, res, h, hb => by cases h
  | some (status, chain) :: rest, maxLen, best, res, h, hb => by
    rw [rcLoop] at h
    by_cases hst : status = 200
    · rw [if_pos hst] at h
      by_cases hcond : maxLen < chain.length ∧ validChain chain = some true
      · rw [if_pos hcond] at h
        exact rcLoop_best_valid rest chain.length (some chain) res h
          (fun c hc => by injection hc with hc1; rw [← hc1]; exact hcond.2)
      · rw [if_neg hcond] at h
        exact rcLoop_best_valid rest maxLen best res h hb
    · rw [if_neg hst] at h
      exact rcLoop_best_valid rest maxLen best res h hb

/-- C2 (amended): in every chain reachable by the core operations, every block
after the first links to the hash of its predecessor and passes `ValidProof`
on its nonce, previous hash and transactions at the global difficulty — i.e.
the hex hash of its timestamp-zeroed candidate has at least 3 leading zero
digits.  (The identity hash itself, timestamp included, need not: see the
counterexample.) -/
theorem c2_chain_linked_pow (bc : Blockchain) (h : Reachable bc) :
    chainLinkedPow bc.chain := by
  induction h with
  | genesis a p ts => exact chainLinkedPow_short _ (Nat.le_refl 1)
  | addTx ev bc sender recipient value pk s ok bc' hr heq ih =>
    rw [addTransaction_chain ev bc sender recipient value pk s ok bc' heq]
    exact ih
  | mine ev ts fuel bc ok bc' hr heq ih =>
    rcases mining_spec ev ts fuel bc ok bc' heq with ⟨-, rfl⟩ | ⟨-, lb, nonce, hlast, hpowl, rfl⟩
    · exact ih
    · have hv := ((powLoop_some_iff lb.hash _ fuel 0 nonce).mp hpowl).1
      rw [copyTransactionPool_eq] at hv
      exact chainLinkedPow_append bc.chain _ lb ih hlast rfl hv
  | resolve responses bc ok bc' hr heq ih =>
    unfold resolveConflicts at heq
    split at heq
    · cases heq
    · injection heq with h1
      injection h1 with h2 h3
      rw [← h3]
      exact ih
    · rename_i c hrc
      injection heq with h1
      injection h1 with h2 h3
      rw [← h3]
      exact validChain_linked c
        (rcLoop_best_valid responses bc.chain.length none (some c) hrc
          (fun c hc => by cases hc) c rfl)

theorem c2_chain_linked_pow_witness : chainLinkedPow (newBlockchain "w" 9 0).chain :=
  c2_chain_linked_pow _ (Reachable.genesis "w" 9 0)

def chainC2cex : List Block := [gBlockC, ⟨1, 5327, hashG, some []⟩]

def bcC2cex : Blockchain := ⟨some [], chainC2cex, "a", 5000, []⟩

set_option maxRecDepth 200000 in
/-- A reachable state (genesis, then `ResolveConflicts` adopting a longer
valid neighbor chain) whose second block's identity hash — its timestamp is 1,
not the 0 of the proof-of-work candidate — has no leading zero hex digit, so
the spec's identity-hash reading of the invariant fails on it. -/
theorem c2_identity_hash_counterexample :
    Reachable bcC2cex ∧ ¬ chainHashInv bcC2cex.chain := by
  constructor
  · exact Reachable.resolve [some (200, chainC2cex)] (newBlockchain "a" 5000 7) true bcC2cex
      (Reachable.genesis "a" 5000 7) (by decide)
  · intro hinv
    exact absurd (hinv 1 (by decide) (by decide)).2 (by decide)

/-- The running `maxLength` of the neighbor scan: the local chain's length
until a candidate is held, then the held candidate's length. -/
def lenOf (L0 : Nat) : Option (List Block) → Nat
  | none => L0
  | some c => c.length

theorem rcLoop_go (L0 : Nat) : ∀ (rs : List FetchResult) (best : Option (List Block)),
    (∀ r ∈ rs, r ≠ none) →
    (∀ c, best = some c → L0 < c.length ∧ validChain c = some true) →
    ∃ best', rcLoop rs (lenOf L0 best) best = some best' ∧
      lenOf L0 best ≤ lenOf L0 best' ∧
      (∀ c, best' = some c → L0 < c.length ∧ validChain c = some true) ∧
      (∀ r ∈ rs, ∀ c : List Block, r = some (200, c) → L0 < c.length →
        validChain c = some true → c.length ≤ lenOf L0 best') ∧
      (best' = none → best = none ∧ ∀ r ∈ rs, ∀ c : List Block, r = some (200, c) →
        ¬(L0 < c.length ∧ validChain c = some true)) ∧
      (∀ c, best' = some c → best = some c ∨ some (200, c) ∈ rs) := by
  intro rs
  induction rs with
  | nil =>
    intro best hok hbest
    refine ⟨best, rfl, le_refl _, hbest, ?_, ?_, ?_⟩
    · intro r hr
      exact absurd hr (List.not_mem_nil r)
    · intro hb
      exact ⟨hb, fun r hr => absurd hr (List.not_mem_nil r)⟩
    · intro c hc
      exact Or.inl hc
  | cons r rest ih =>
    intro best hok hbest
    have hrne : r ≠ none := hok r (List.mem_cons_self r rest)
    rcases r with - | ⟨status, chain⟩
    · exact absurd rfl hrne
    · have hokRest : ∀ r' ∈ rest, r' ≠ none := fun r' hr' => hok r' (List.mem_cons_of_mem _ hr')
      by_cases hst : status = 200
      · subst hst
        by_cases hcond : lenOf L0 best < chain.length ∧ validChain chain = some true
        · have hL0 : L0 ≤ lenOf L0 best := by
            cases best with
            | none => exact le_refl _
            | some c0 => exact le_of_lt (hbest c0 rfl).1
          have hbest' : ∀ c, some chain = some c → L0 < c.length ∧ validChain c = some true := by
            intro c hc
            injection hc with hc1
            subst hc1
            exact ⟨lt_of_le_of_lt hL0 hcond.1, hcond.2⟩
          obtain ⟨best', hrc, hle, hval, hbound, hnone, horig⟩ := ih (some chain) hokRest hbest'
          refine ⟨best', ?_, ?_, hval, ?_, ?_, ?_⟩
          · simp only [rcLoop, if_true]
            rw [if_pos hcond]
            exact hrc
          · exact le_trans (le_of_lt hcond.1) hle
          · intro r' hr' c hc hl hv
            rcases List.mem_cons.mp hr' with h | h
            · rw [h] at hc
              injection hc with hc1
              injection hc1 with hc2 hc3
              subst hc3
              exact hle
            · exact hbound r' h c hc hl hv
          · intro hb
            exact absurd (hnone hb).1 (fun he => Option.noConfusion he)
          · intro c hc
            rcases horig c hc with h | h
            · injection h with h1
              subst h1
              exact Or.inr (List.mem_cons_self _ _)
            · exact Or.inr (List.mem_cons_of_mem _ h)
        · obtain ⟨best', hrc, hle, hval, hbound, hnone, horig⟩ := ih best hokRest hbest
          refine ⟨best', ?_, hle, hval, ?_, ?_, ?_⟩
          · simp only [rcLoop, if_true]
            rw [if_neg hcond]
            exact hrc
          · intro r' hr' c hc hl hv
            rcases List.mem_cons.mp hr' with h | h
            · rw [h] at hc
              injection hc with hc1
              injection hc1 with hc2 hc3
              subst hc3
              have hnlt : ¬ lenOf L0 best < chain.length := fun hlt => hcond ⟨hlt, hv⟩
              exact le_trans (Nat.le_of_not_lt hnlt) hle
            · exact hbound r' h c hc hl hv
          · intro hb
            obtain ⟨hbn, hrest⟩ := hnone hb
            refine ⟨hbn, ?_⟩
            intro r' hr' c hc
            rcases List.mem_cons.mp hr' with h | h
            · rw [h] at hc
              injection hc with hc1
              injection hc1 with hc2 hc3
              subst hc3
              rw [hbn] at hcond
              exact hcond
            · exact hrest r' h c hc
          · intro c hc
            rcases horig c hc with h | h
            · exact Or.inl h
            · exact Or.inr (List.mem_cons_of_mem _ h)
      · obtain ⟨best', hrc, hle, hval, hbound, hnone, horig⟩ := ih best hokRest hbest
        refine ⟨best', ?_, hle, hval, ?_, ?_, ?_⟩
        · simp only [rcLoop]
          rw [if_neg hst]
          exact hrc
        · intro r' hr' c hc hl hv
          rcases List.mem_cons.mp hr' with h | h
          · rw [h] at hc
            injection hc with hc1
            injection hc1 with hc2 hc3
            exact absurd hc2 hst
          · exact hbound r' h c hc hl hv
        · intro hb
          obtain ⟨hbn, hrest⟩ := hnone hb
          refine ⟨hbn, ?_⟩
          intro r' hr' c hc
          rcases List.mem_cons.mp hr' with h | h
          · rw [h] at hc
            injection hc with hc1
            injection hc1 with hc2 hc3
            exact absurd hc2 hst
          · exact hrest r' h c hc
        · intro c hc
          rcases horig c hc with h | h
          · exact Or.inl h
          · exact Or.inr (List.mem_cons_of_mem _ h)

set_option maxRecDepth 400000 in
/-- C5: with every fetch succeeding, `ResolveConflicts` returns a boolean and
replaces the local chain exactly when some 200-response carries a chain that
is strictly longer than the local one and passes `ValidChain`; the adopted
chain is such a chain of maximal length among them (an equal-length chain
never qualifies); and on the spec's scenario — local length 3, one invalid
length-5 neighbor chain and one valid length-4 — the length-4 chain is
adopted. -/
theorem c5_resolve_conflicts :
    (∀ (rs : List FetchResult) (bc : Blockchain), (∀ r ∈ rs, r ≠ none) →
      ∃ (ok : Bool) (bc' : Blockchain), resolveConflicts rs bc = some (ok, bc') ∧
        (ok = true ↔ ∃ r ∈ rs, ∃ c : List Block, r = some (200, c) ∧
          bc.chain.length < c.length ∧ validChain c = some true) ∧
        (ok = false → bc' = bc) ∧
        (ok = true → bc.chain.length < bc'.chain.length ∧ validChain bc'.chain = some true ∧
          some (200, bc'.chain) ∈ rs ∧
          ∀ r ∈ rs, ∀ c : List Block, r = some (200, c) → bc.chain.length < c.length →
            validChain c = some true → c.length ≤ bc'.chain.length))
    ∧ resolveConflicts [some (200, badFive), some (200, goodFour)] localBc =
        some (true, { localBc with chain := goodFour }) := by
  constructor
  · intro rs bc hok
    obtain ⟨best', hrc, hle, hval, hbound, hnone, horig⟩ :=
      rcLoop_go bc.chain.length rs none hok (fun c hc => Option.noConfusion hc)
    have hrc' : rcLoop rs bc.chain.length none = some best' := hrc
    cases best' with
    | none =>
      refine ⟨false, bc, ?_, ?_, fun _ => rfl, fun h => Bool.noConfusion h⟩
      · unfold resolveConflicts
        rw [hrc']
      · constructor
        · intro h
          exact Bool.noConfusion h
        · rintro ⟨r, hmem, c, hr, hlen, hvc⟩
          exact absurd ⟨hlen, hvc⟩ ((hnone rfl).2 r hmem c hr)
    | some c =>
      refine ⟨true, { bc with chain := c }, ?_, ?_, fun h => Bool.noConfusion h, ?_⟩
      · unfold resolveConflicts
        rw [hrc']
      · constructor
        · intro _
          rcases horig c rfl with h | h
          · exact Option.noConfusion h
          · exact ⟨some (200, c), h, c, rfl, (hval c rfl).1, (hval c rfl).2⟩
        · intro _
          rfl
      · intro _
        refine ⟨(hval c rfl).1, (hval c rfl).2, ?_, ?_⟩
        · rcases horig c rfl with h | h
          · exact Option.noConfusion h
          · exact h
        · intro r hmem c' hr hl hv
          exact hbound r hmem c' hr hl hv
  · decide
